import Mathlib

/-!
Verification of the bank-queue discrete-event simulation
(`src/scripts/simulation.py`, class `BankQueueSimulation`).

Shallow embedding conventions:
* Python floats are modelled as exact rationals (`ℚ`); `float('inf')` is
  modelled by the two-constructor type `XQ` (`fin q` or `inf`) with the
  comparison and `min` behaviour of IEEE infinities on ordinary values.
* The two `np.random.uniform` draws (`generate_interarrival_time`,
  `generate_service_time`) are modelled as injected duration streams
  `inter serv : ℕ → ℚ` consumed through per-stream counters, matching the
  spec requirement that the distribution sources are externally supplied.
* Python object mutation of `Customer` records (shared between
  `self.customers`, `self.queue` and the scheduler) is modelled by updating
  the `customers` list at the customer's unique `id`; the queue holds the
  customer values, which is faithful because the source never mutates a
  record while it sits in the queue.
* The unbounded `while` loop of `BankQueueSimulation.run` is modelled with
  explicit fuel; exhausting the fuel is reported as a separate outcome and
  never identified with any behaviour of the source.
* The `next(...)` generator expression of the departure branch raises
  `StopIteration` when no customer matches; this is modelled as the
  `stopIteration` outcome.
* The state carries one ghost field `departed` (the ids of the customers
  dispatched to `handle_departure`, in dispatch order). It is written by no
  branch condition and read by no computation; it only lets theorems talk
  about which customers have been treated as departures.
-/

/-- Extended rational: a Python float that is either an ordinary value or
`float('inf')`. -/
inductive XQ where
  | fin : ℚ → XQ
  | inf : XQ
deriving DecidableEq, Repr

namespace XQ

/-- Comparison `a <= b` as Python evaluates it on floats with infinities. -/
def le : XQ → XQ → Bool
  | _, .inf => true
  | .inf, .fin _ => false
  | .fin a, .fin b => decide (a ≤ b)

/-- Python `min(a, b)` on floats: the first argument when `a <= b`. -/
def minv (a b : XQ) : XQ := if a.le b then a else b

end XQ

/-!
Arithmetic on ℚ. The kernel cannot reduce `Rat.add` and friends on
literals (their definitions normalize through `@[extern]` paths), which
would make the concrete simulation runs below impossible to evaluate
inside proofs. The model therefore uses the explicit `mkRat`/`Rat.divInt`
forms `qadd`, `qsub`, `qmul`, `qdiv`, `qabs`, which the kernel evaluates,
and the lemmas `qadd_eq`, `qsub_eq`, `qmul_eq`, `qdiv_eq`, `qabs_eq`
prove them equal to the standard rational operations, so every use below
denotes exactly the numeric operation of the source.
-/

/-- Addition on ℚ in kernel-computable form. -/
def qadd (a b : ℚ) : ℚ := mkRat (a.num * b.den + b.num * a.den) (a.den * b.den)

/-- Negation on ℚ in kernel-computable form. -/
def qneg (a : ℚ) : ℚ := mkRat (-a.num) a.den

/-- Subtraction on ℚ in kernel-computable form. -/
def qsub (a b : ℚ) : ℚ := qadd a (qneg b)

/-- Multiplication on ℚ in kernel-computable form. -/
def qmul (a b : ℚ) : ℚ := mkRat (a.num * b.num) (a.den * b.den)

/-- Division on ℚ in kernel-computable form. -/
def qdiv (a b : ℚ) : ℚ := Rat.divInt (a.num * b.den) (a.den * b.num)

/-- Absolute value on ℚ in kernel-computable form. -/
def qabs (a : ℚ) : ℚ := if a < 0 then qneg a else a

lemma qadd_eq (a b : ℚ) : qadd a b = a + b := by
  rw [qadd, Rat.mkRat_eq_divInt, Rat.divInt_eq_div, Rat.add_def,
    Rat.normalize_eq_mkRat, Rat.mkRat_eq_divInt, Rat.divInt_eq_div]

lemma qneg_eq (a : ℚ) : qneg a = -a := by
  rw [qneg, Rat.mkRat_eq_divInt, Rat.divInt_eq_div]
  push_cast
  rw [neg_div, Rat.num_div_den]

lemma qsub_eq (a b : ℚ) : qsub a b = a - b := by
  rw [qsub, qadd_eq, qneg_eq, sub_eq_add_neg]

lemma qabs_eq (a : ℚ) : qabs a = |a| := by
  rw [qabs]
  split
  · rw [qneg_eq, abs_of_neg]; assumption
  · rw [abs_of_nonneg]; linarith [not_lt.mp (by assumption : ¬ a < 0)]

lemma qmul_eq (a b : ℚ) : qmul a b = a * b := by
  rw [qmul, Rat.mkRat_eq_divInt, Rat.divInt_eq_div, Rat.mul_def,
    Rat.normalize_eq_mkRat, Rat.mkRat_eq_divInt, Rat.divInt_eq_div]

lemma rat_num_eq (a : ℚ) : (a.num : ℚ) = a * a.den := by
  have h : (a.den : ℚ) ≠ 0 := by exact_mod_cast a.den_nz
  exact (div_eq_iff h).mp (Rat.num_div_den a)

lemma qdiv_eq (a b : ℚ) : qdiv a b = a / b := by
  rw [qdiv, Rat.divInt_eq_div]
  rcases eq_or_ne b 0 with rfl | hb
  · simp
  · have ha : (a.den : ℚ) ≠ 0 := by exact_mod_cast a.den_nz
    have hbn : (b.num : ℚ) ≠ 0 := by exact_mod_cast Rat.num_ne_zero.mpr hb
    push_cast
    rw [div_eq_div_iff (mul_ne_zero ha hbn) hb, rat_num_eq a, rat_num_eq b]
    ring

/-- Mirror of the `Customer` dataclass: `service_start` and
`departure_time` default to `0.0` until service begins. -/
structure Customer where
  id : ℕ
  arrival_time : ℚ
  service_time : ℚ
  service_start : ℚ := 0
  departure_time : ℚ := 0
deriving DecidableEq, Repr, Inhabited

namespace Customer

/-- Property `Customer.waiting_time`. -/
def waiting_time (c : Customer) : ℚ := qsub c.service_start c.arrival_time

/-- Property `Customer.time_in_system`. -/
def time_in_system (c : Customer) : ℚ := qsub c.departure_time c.arrival_time

end Customer

/-- The assignment pair `customer.service_start = clock;
customer.departure_time = clock + customer.service_time` used at both
service-start sites of the source. -/
def startService (t : ℚ) (c : Customer) : Customer :=
  { c with service_start := t, departure_time := qadd t c.service_time }

/-- The `self.metrics` dictionary. The two `average_*` keys only exist
after finalization in the source; before that they are carried here with
value `0`. -/
structure Metrics where
  total_waiting_time : ℚ := 0
  total_system_time : ℚ := 0
  max_queue_length : ℕ := 0
  server_utilization : ℚ := 0
  busy_time : ℚ := 0
  average_waiting_time : ℚ := 0
  average_system_time : ℚ := 0
deriving DecidableEq, Repr

/-- The mutable state of `BankQueueSimulation` plus the two stream
counters and the ghost `departed` history. -/
structure SimState where
  num_customers : ℤ
  customers : List Customer
  clock : ℚ
  server_busy : Bool
  queue : List Customer
  next_event_time : XQ
  next_arrival : ℚ
  next_departure : XQ
  metrics : Metrics
  nInter : ℕ
  nServ : ℕ
  departed : List ℕ
deriving DecidableEq, Repr

/-- Update the customer record with the given id (Python mutates the shared
object; ids are unique in every reachable state). -/
def updateCustomer (cs : List Customer) (i : ℕ) (f : Customer → Customer) :
    List Customer :=
  cs.map (fun c => if c.id = i then f c else c)

/-- Method `schedule_arrival`. -/
def schedule_arrival (t : ℚ) (s : SimState) : SimState :=
  { s with next_arrival := t,
           next_event_time := s.next_event_time.minv (.fin t) }

/-- Method `schedule_departure`. -/
def schedule_departure (t : ℚ) (s : SimState) : SimState :=
  { s with next_departure := .fin t,
           next_event_time := s.next_event_time.minv (.fin t) }

/-- Method `handle_arrival`, for the customer just appended to
`self.customers` by the run loop. The discarded `next_customer` object of
the source is modelled by consuming its two draws; only its
`arrival_time` (`clock + interarrival`) is ever used. -/
def handle_arrival (inter _serv : ℕ → ℚ) (c : Customer) (s : SimState) :
    SimState :=
  let s1 :=
    if s.server_busy then
      { s with queue := s.queue ++ [c] }
    else
      let s0 := { s with server_busy := true,
                         customers := updateCustomer s.customers c.id
                           (startService s.clock) }
      schedule_departure (qadd s.clock c.service_time) s0
  let s2 :=
    if (s1.customers.length : ℤ) < s1.num_customers - 1 then
      let ia := inter s1.nInter
      let s1b := { s1 with nInter := s1.nInter + 1, nServ := s1.nServ + 1 }
      schedule_arrival (qadd s1b.clock ia) s1b
    else s1
  { s2 with metrics :=
      { s2.metrics with
        max_queue_length := max s2.metrics.max_queue_length s2.queue.length } }

/-- Method `handle_departure`, for the customer matched by the run loop's
scan. Metrics are accumulated from the matched customer's current fields
before the queue head (if any) is moved into service. -/
def handle_departure (c : Customer) (s : SimState) : SimState :=
  let m := { s.metrics with
             total_waiting_time := qadd s.metrics.total_waiting_time c.waiting_time,
             total_system_time := qadd s.metrics.total_system_time c.time_in_system,
             busy_time := qadd s.metrics.busy_time c.service_time }
  let s1 := { s with metrics := m, departed := s.departed ++ [c.id] }
  match s1.queue with
  | [] => { s1 with server_busy := false, next_departure := .inf }
  | h :: rest =>
    let s2 := { s1 with queue := rest,
                        customers := updateCustomer s1.customers h.id
                          (startService s1.clock) }
    schedule_departure (qadd s1.clock h.service_time) s2

/-- The scan predicate of the departure branch:
`abs(c.departure_time - self.clock) < 1e-6`. -/
def departureMatch (clock : ℚ) (c : Customer) : Bool :=
  decide (qabs (qsub c.departure_time clock) < mkRat 1 1000000)

/-- Outcome of one iteration of the `while` loop of `run`. -/
inductive StepOut where
  | cont (s : SimState)
  | finished (s : SimState)
  | stopIteration (s : SimState)
deriving DecidableEq, Repr

/-- One iteration of the main simulation loop of `run` (lines 111-135):
advance the clock to `next_event_time`, break when it is infinite, else
dispatch an arrival (creating the customer record) or a departure (scanning
`self.customers` for a departure time within `1e-6` of the clock; an empty
scan is the `StopIteration` of the bare `next(...)`), then recompute
`next_event_time = min(next_arrival, next_departure)`. -/
def step (inter serv : ℕ → ℚ) (s : SimState) : StepOut :=
  match s.next_event_time with
  | .inf => .finished s
  | .fin t =>
    let s1 := { s with clock := t }
    if (XQ.fin s1.next_arrival).le s1.next_departure
        && decide ((s1.customers.length : ℤ) < s1.num_customers) then
      let c : Customer := { id := s1.customers.length,
                            arrival_time := s1.next_arrival,
                            service_time := serv s1.nServ }
      let s2 := { s1 with customers := s1.customers ++ [c],
                          nServ := s1.nServ + 1 }
      let s3 := handle_arrival inter serv c s2
      .cont { s3 with
        next_event_time := (XQ.fin s3.next_arrival).minv s3.next_departure }
    else
      match s1.customers.find? (fun c => departureMatch s1.clock c) with
      | none => .stopIteration s1
      | some c =>
        let s2 := handle_departure c s1
        .cont { s2 with
          next_event_time := (XQ.fin s2.next_arrival).minv s2.next_departure }

/-- Error raised by the run, or fuel exhaustion of the model. -/
inductive RunResult where
  | ok (m : Metrics) (s : SimState)
  | stopIteration (s : SimState)
  | zeroDivision (s : SimState)
  | fuelOut (s : SimState)
deriving DecidableEq, Repr

/-- The final-metrics block of `run` (lines 137-141): divide `busy_time`
by the clock value at loop exit and the two totals by `num_customers`.
Python raises `ZeroDivisionError` on a zero divisor; division by the
infinite clock yields `0.0`. -/
def finalizeMetrics (m : Metrics) (clock : XQ) (n : ℤ) : Except Unit Metrics :=
  let util : Except Unit ℚ :=
    match clock with
    | .inf => .ok 0
    | .fin t => if t = 0 then .error () else .ok (qmul (qdiv m.busy_time t) 100)
  match util with
  | .error _ => .error ()
  | .ok u =>
    if n = 0 then .error ()
    else
      .ok { m with server_utilization := u,
                   average_waiting_time := qdiv m.total_waiting_time (n : ℚ),
                   average_system_time := qdiv m.total_system_time (n : ℚ) }

/-- The main loop of `run`, with explicit fuel. After the `break` (clock
advanced to infinity) the source falls through to the final-metrics
block with the infinite clock. -/
def runLoop (inter serv : ℕ → ℚ) (fuel : ℕ) (s : SimState) : RunResult :=
  match fuel with
  | 0 => .fuelOut s
  | fuel + 1 =>
    match step inter serv s with
    | .finished t =>
      match finalizeMetrics t.metrics .inf t.num_customers with
      | .ok m => .ok m { t with metrics := m }
      | .error _ => .zeroDivision t
    | .stopIteration t => .stopIteration t
    | .cont t => runLoop inter serv fuel t

/-- State after `__init__(num_customers)`. -/
def initState (n : ℤ) : SimState :=
  { num_customers := n, customers := [], clock := 0, server_busy := false,
    queue := [], next_event_time := .inf, next_arrival := 0,
    next_departure := .inf, metrics := {}, nInter := 0, nServ := 0,
    departed := [] }

/-- State after the preamble of `run` (lines 102-108): the seed customer
draws a service time (the object itself is otherwise discarded — the loop
re-creates customer 0 with a fresh draw) and its arrival at `0.0` is
scheduled. -/
def startState (_inter _serv : ℕ → ℚ) (n : ℤ) : SimState :=
  schedule_arrival 0 { initState n with nServ := 1 }

/-- Method `run`: preamble, fuelled loop, finalization. -/
def run (inter serv : ℕ → ℚ) (n : ℤ) (fuel : ℕ) : RunResult :=
  runLoop inter serv fuel (startState inter serv n)

/-- Row shape produced by `get_customer_data`. -/
structure CustomerData where
  id : ℕ
  arrival_time : ℚ
  service_time : ℚ
  waiting_time : ℚ
  departure_time : ℚ
  time_in_system : ℚ
deriving DecidableEq, Repr

/-- One row of `get_customer_data`. -/
def toData (c : Customer) : CustomerData :=
  { id := c.id, arrival_time := c.arrival_time, service_time := c.service_time,
    waiting_time := c.waiting_time, departure_time := c.departure_time,
    time_in_system := c.time_in_system }

/-- Method `get_customer_data`. -/
def get_customer_data (s : SimState) : List CustomerData :=
  s.customers.map toData

/-- Iterate `step` for inspection of intermediate loop states; stops at a
non-`cont` outcome. -/
def stepN (inter serv : ℕ → ℚ) : ℕ → SimState → SimState
  | 0, s => s
  | k + 1, s =>
    match step inter serv s with
    | .cont t => stepN inter serv k t
    | .finished t => t
    | .stopIteration t => t

/-- States reachable from `s` by completed loop iterations. -/
inductive Reaches (inter serv : ℕ → ℚ) : SimState → SimState → Prop
  | refl (s : SimState) : Reaches inter serv s s
  | tail {s t u : SimState} : Reaches inter serv s t →
      step inter serv t = .cont u → Reaches inter serv s u

/-- Whether a run outcome is a normal return of metrics. -/
def RunResult.isOk : RunResult → Bool
  | .ok _ _ => true
  | _ => false

/-- Whether a run outcome is the propagated `StopIteration`. -/
def RunResult.isStop : RunResult → Bool
  | .stopIteration _ => true
  | _ => false

/-- A customer whose service has been assigned by one of the two
service-start sites: `departure_time` is exactly `service_start`
plus `service_time`, and service began no earlier than arrival. -/
def served (c : Customer) : Prop :=
  c.arrival_time ≤ c.service_start ∧
  c.departure_time = c.service_start + c.service_time

/-- Concrete interarrival stream used in concrete runs: always 5 minutes. -/
def uInter : ℕ → ℚ := fun _ => 5

/-- Concrete service stream used in concrete runs: draw `k` yields `k + 2`
minutes (strictly positive, inside the documented `[1, 6)` range for the
draws the runs below consume). -/
def uServ : ℕ → ℚ := fun k => ((k + 2 : ℕ) : ℚ)

/-- Concrete service stream returning a negative duration. -/
def negServ : ℕ → ℚ := fun _ => -1

/-- Loop state after two iterations of the two-customer concrete run:
customer 0 in service (departure pending at 3), customer 1 queued with
default `service_start`/`departure_time`. -/
def exState2 : SimState := stepN uInter uServ 2 (startState uInter uServ 2)

/-- Loop state after three iterations of the two-customer concrete run:
the third dispatch was a departure that matched the queued customer 1. -/
def exState3 : SimState := stepN uInter uServ 3 (startState uInter uServ 2)

/-- Python `min` of a finite float and anything is finite. -/
lemma minv_fin_left (a : ℚ) (b : XQ) : ∃ q, (XQ.fin a).minv b = XQ.fin q := by
  cases b with
  | inf => exact ⟨a, rfl⟩
  | fin c =>
    unfold XQ.minv
    split
    · exact ⟨a, rfl⟩
    · exact ⟨c, rfl⟩

/-- Every completed loop iteration leaves `next_event_time` finite,
because `next_arrival` is a plain float that is never set to infinity. -/
lemma step_continue_fin {inter serv : ℕ → ℚ} {s u : SimState}
    (h : step inter serv s = .cont u) : ∃ q, u.next_event_time = XQ.fin q := by
  unfold step at h
  cases hne : s.next_event_time with
  | inf => rw [hne] at h; exact absurd h (by simp)
  | fin t =>
    rw [hne] at h
    simp only at h
    split at h
    · cases h
      exact minv_fin_left _ _
    · split at h
      · exact absurd h (by simp)
      · cases h
        exact minv_fin_left _ _

/-- A loop iteration from a state with finite `next_event_time` never
takes the `break` (finished) branch. -/
lemma step_fin_not_finished {inter serv : ℕ → ℚ} {s t : SimState} (q : ℚ)
    (hq : s.next_event_time = XQ.fin q) :
    step inter serv s ≠ .finished t := by
  intro h
  unfold step at h
  rw [hq] at h
  simp only at h
  split at h
  · exact absurd h (by simp)
  · split at h
    · exact absurd h (by simp)
    · exact absurd h (by simp)

/-- From any state with finite `next_event_time`, the run loop never
returns metrics: its only outcomes are `StopIteration` or fuel
exhaustion. -/
lemma runLoop_no_ok_aux (inter serv : ℕ → ℚ) (fuel : ℕ) :
    ∀ s : SimState, (∃ q, s.next_event_time = XQ.fin q) →
      (runLoop inter serv fuel s).isOk = false := by
  induction fuel with
  | zero => intro s _; rfl
  | succ n ih =>
    intro s hs
    obtain ⟨q, hq⟩ := hs
    unfold runLoop
    cases hstep : step inter serv s with
    | finished t => exact absurd hstep (step_fin_not_finished q hq)
    | stopIteration t => rfl
    | cont t => exact ih t (step_continue_fin hstep)

/-- C1: false on the code. For `num_customers = 1`, after the arrival of
the single (and last) generated customer no further arrival is scheduled,
but the pending arrival event is NOT cleared: `next_arrival` keeps its
last finite value `0.0`, the scheduler again selects it as
`next_event_time`, and the next dispatch (forced into the departure
branch) raises `StopIteration`. -/
theorem c1_pending_arrival_not_cleared :
    (stepN uInter uServ 1 (startState uInter uServ 1)).customers.length = 1 ∧
    (stepN uInter uServ 1 (startState uInter uServ 1)).next_arrival = 0 ∧
    (stepN uInter uServ 1 (startState uInter uServ 1)).next_event_time = XQ.fin 0 ∧
    (runLoop uInter uServ 10 (startState uInter uServ 1)).isStop = true := by
  decide

/-- C2: false on the code. For every pair of duration streams, every
customer count and every fuel bound, the run never returns finalized
metrics: `next_arrival` is always a finite float, so `next_event_time`
never becomes infinite and the loop's only exit is the unhandled
`StopIteration` of the departure scan. -/
theorem c2_run_never_returns_metrics (inter serv : ℕ → ℚ) (n : ℤ) (fuel : ℕ) :
    (runLoop inter serv fuel (startState inter serv n)).isOk = false :=
  runLoop_no_ok_aux inter serv fuel _ ⟨0, rfl⟩

/-- C3: false on the code. In the two-customer concrete run, the third
dispatch is a departure at clock `0` while customer 0 is in service with
its departure pending at time `3`; the scan matches the queued,
never-served customer 1 (whose `departure_time` is the default `0.0`)
and silently dispatches it: the ghost `departed` history of the next
state is `[1]`, its `busy_time` is customer 1's service time `4`, and
customer 0's pending departure event is overwritten by `4`. -/
theorem c3_departure_scan_misselects :
    exState2.server_busy = true ∧
    exState2.next_departure = XQ.fin 3 ∧
    exState2.queue.map Customer.id = [1] ∧
    (exState2.queue.headD default).departure_time = 0 ∧
    exState2.customers.find? (departureMatch 0) =
      some { id := 1, arrival_time := 0, service_time := 4 } ∧
    exState3.departed = [1] ∧
    exState3.metrics.busy_time = 4 ∧
    exState3.next_departure = XQ.fin 4 := by
  decide

/-- C4: false on the code. The `num_customers = 1` run does not complete:
it raises `StopIteration` (second dispatch, at clock 0) and returns no
metrics at all. -/
theorem c4_single_customer_run_crashes :
    (runLoop uInter uServ 100 (startState uInter uServ 1)).isOk = false ∧
    (runLoop uInter uServ 100 (startState uInter uServ 1)).isStop = true := by
  decide

/-- C5: false on the code. The finalization block divides `busy_time` by
the clock with no zero guard, so at a zero clock it raises
`ZeroDivisionError` instead of reporting `0%` (and the block is anyway
unreachable, by the non-termination lemmas above). -/
theorem c5_finalize_zero_clock_raises :
    finalizeMetrics {} (XQ.fin 0) 1 = .error () ∧
    finalizeMetrics { busy_time := 5 } (XQ.fin 0) 500 = .error () := by
  constructor <;> rfl

/-- C6: false on the code. In the two-customer concrete run, after the
spurious departure of the queued customer 1 the accumulators hold
`total_system_time = 0` but `total_waiting_time + busy_time = 4`, and
finalization is never reached (the run ends in `StopIteration`). -/
theorem c6_conservation_violated :
    ¬ (exState3.metrics.total_system_time =
        exState3.metrics.total_waiting_time + exState3.metrics.busy_time) ∧
    (runLoop uInter uServ 100 (startState uInter uServ 2)).isStop = true := by
  have h1 : exState3.metrics.total_system_time = 0 := by decide
  have h2 : exState3.metrics.total_waiting_time = 0 := by decide
  have h3 : exState3.metrics.busy_time = 4 := by decide
  refine ⟨?_, by decide⟩
  rw [h1, h2, h3]
  norm_num

/-- C9: false on the code. No configuration validation exists:
`num_customers = 0` is accepted and the run raises `StopIteration` at the
very first dispatch (empty customer scan), and a negative service
duration `-1` is accepted and used, scheduling a departure at time `-1`. -/
theorem c9_no_invalid_configuration_error :
    (runLoop uInter uServ 10 (startState uInter uServ 0)).isStop = true ∧
    (stepN uInter negServ 1 (startState uInter negServ 1)).customers.map
      Customer.service_time = [-1] ∧
    (stepN uInter negServ 1 (startState uInter negServ 1)).next_departure =
      XQ.fin (-1) := by
  decide

/-- C10: confirmed. A customer that has not yet started service carries
the default `0.0` in `service_start` and `departure_time` (no distinct
unset marker); with `arrival_time = t > 0` both derived times evaluate to
`-t`, `get_customer_data` exposes them unchanged, and such a customer
satisfies the departure-scan predicate whenever the clock is within
`1e-6` of `0`. -/
theorem c10_default_zero_sentinels (i : ℕ) (t sd clock : ℚ) (ht : 0 < t)
    (hc : |clock - 0| < 1 / 1000000) :
    ({ id := i, arrival_time := t, service_time := sd } : Customer).service_start = 0 ∧
    ({ id := i, arrival_time := t, service_time := sd } : Customer).departure_time = 0 ∧
    Customer.waiting_time { id := i, arrival_time := t, service_time := sd } = -t ∧
    Customer.time_in_system { id := i, arrival_time := t, service_time := sd } = -t ∧
    get_customer_data { initState 1 with
        customers := [{ id := i, arrival_time := t, service_time := sd }] } =
      [{ id := i, arrival_time := t, service_time := sd, waiting_time := -t,
         departure_time := 0, time_in_system := -t }] ∧
    departureMatch clock { id := i, arrival_time := t, service_time := sd } = true := by
  have hw : Customer.waiting_time { id := i, arrival_time := t, service_time := sd } = -t := by
    rw [Customer.waiting_time, qsub_eq]
    ring
  have hs : Customer.time_in_system { id := i, arrival_time := t, service_time := sd } = -t := by
    rw [Customer.time_in_system, qsub_eq]
    ring
  refine ⟨rfl, rfl, hw, hs, ?_, ?_⟩
  · rw [get_customer_data, List.map_cons, List.map_nil, toData, hw, hs]
  · rw [departureMatch]
    simp only [qabs_eq, qsub_eq, decide_eq_true_eq]
    have hmk : (mkRat 1 1000000 : ℚ) = 1 / 1000000 := by
      rw [Rat.mkRat_eq_divInt, Rat.divInt_eq_div]
      norm_num
    rw [hmk, abs_sub_comm]
    simpa using hc

/-- C10 witness at a concrete instance. -/
theorem c10_witness :
    (0:ℚ) < 1 ∧ |(0:ℚ) - 0| < 1 / 1000000 ∧
    (({ id := 0, arrival_time := 1, service_time := 2 } : Customer).service_start = 0 ∧
    ({ id := 0, arrival_time := 1, service_time := 2 } : Customer).departure_time = 0 ∧
    Customer.waiting_time { id := 0, arrival_time := 1, service_time := 2 } = -1 ∧
    Customer.time_in_system { id := 0, arrival_time := 1, service_time := 2 } = -1 ∧
    get_customer_data { initState 1 with
        customers := [{ id := 0, arrival_time := 1, service_time := 2 }] } =
      [{ id := 0, arrival_time := 1, service_time := 2, waiting_time := -1,
         departure_time := 0, time_in_system := -1 }] ∧
    departureMatch 0 { id := 0, arrival_time := 1, service_time := 2 } = true) :=
  ⟨by norm_num, by norm_num,
    c10_default_zero_sentinels 0 1 2 0 (by norm_num) (by norm_num)⟩

/-- Comparison with infinity always succeeds. -/
lemma XQ.le_inf (a : XQ) : a.le .inf = true := by cases a <;> rfl

/-- Comparison of two finite values is the rational comparison. -/
lemma XQ.le_fin_iff {a b : ℚ} : (XQ.fin a).le (XQ.fin b) = true ↔ a ≤ b := by
  simp [XQ.le]

/-- The reflexivity of the float comparison. -/
lemma XQ.le_fin_refl (a : ℚ) : (XQ.fin a).le (XQ.fin a) = true := by
  simp [XQ.le]

/-- When the minimum of a finite value and another event time is finite,
it is below the finite value and below the other event time. -/
lemma minv_fin_eq_fin {a t : ℚ} {b : XQ} (h : (XQ.fin a).minv b = XQ.fin t) :
    t ≤ a ∧ (XQ.fin t).le b = true := by
  cases b with
  | inf =>
    rw [XQ.minv, if_pos (XQ.le_inf _)] at h
    injection h with h
    constructor
    · rw [← h]
    · rw [← h]; exact XQ.le_inf _
  | fin q =>
    rw [XQ.minv] at h
    split at h
    · injection h with h
      constructor
      · rw [← h]
      · rw [← h]; assumption
    · injection h with h
      subst h
      have hq : ¬ a ≤ q := fun hc =>
        absurd (XQ.le_fin_iff.mpr hc) (by assumption)
      exact ⟨le_of_lt (lt_of_not_le hq), XQ.le_fin_refl _⟩

/-- A lower bound of both arguments bounds a finite minimum. -/
lemma minv_fin_lower {x a t : ℚ} {b : XQ} (h : (XQ.fin a).minv b = XQ.fin t)
    (hxa : x ≤ a) (hxb : (XQ.fin x).le b = true) : x ≤ t := by
  cases b with
  | inf =>
    rw [XQ.minv, if_pos (XQ.le_inf _)] at h
    cases h
    exact hxa
  | fin q =>
    rw [XQ.minv] at h
    split at h
    · injection h with h
      rw [← h]
      exact hxa
    · injection h with h
      subst h
      exact XQ.le_fin_iff.mp hxb

/-- When the arrival time is not later than the departure time, the float
minimum selects the arrival time. -/
lemma minv_of_le {a : ℚ} {b : XQ} (h : (XQ.fin a).le b = true) :
    (XQ.fin a).minv b = XQ.fin a := by
  rw [XQ.minv, if_pos h]

/-- Updating at an id that is absent leaves the list unchanged. -/
lemma updateCustomer_not_mem (cs : List Customer) (i : ℕ) (f : Customer → Customer)
    (h : ∀ c ∈ cs, c.id ≠ i) : updateCustomer cs i f = cs := by
  induction cs with
  | nil => rfl
  | cons c t ih =>
    show (if c.id = i then f c else c) :: updateCustomer t i f = c :: t
    rw [if_neg (h c (List.mem_cons_self c t)),
      ih (fun x hx => h x (List.mem_cons_of_mem _ hx))]

/-- Updating distributes over append. -/
lemma updateCustomer_append (l r : List Customer) (i : ℕ) (f : Customer → Customer) :
    updateCustomer (l ++ r) i f = updateCustomer l i f ++ updateCustomer r i f :=
  List.map_append _ _ _

/-- An id-preserving update keeps the id sequence. -/
lemma updateCustomer_map_id (cs : List Customer) (i : ℕ) (f : Customer → Customer)
    (h : ∀ c, (f c).id = c.id) :
    (updateCustomer cs i f).map Customer.id = cs.map Customer.id := by
  induction cs with
  | nil => rfl
  | cons c t ih =>
    show (if c.id = i then f c else c).id :: (updateCustomer t i f).map Customer.id =
      (c :: t).map Customer.id
    rw [ih, List.map_cons]
    by_cases hc : c.id = i
    · rw [if_pos hc, h]
    · rw [if_neg hc]

/-- An update keeps the length. -/
lemma updateCustomer_length (cs : List Customer) (i : ℕ) (f : Customer → Customer) :
    (updateCustomer cs i f).length = cs.length :=
  List.length_map _ _

/-- Members of the updated list come from members of the original. -/
lemma mem_updateCustomer {cs : List Customer} {i : ℕ} {f : Customer → Customer}
    {c : Customer} (h : c ∈ updateCustomer cs i f) :
    ∃ c0 ∈ cs, c = if c0.id = i then f c0 else c0 := by
  obtain ⟨c0, hc0, hfc⟩ := List.mem_map.mp h
  exact ⟨c0, hc0, hfc.symm⟩

/-- Distinct ids make membership injective on ids. -/
lemma mem_id_inj {cs : List Customer} (hnodup : (cs.map Customer.id).Nodup)
    {a b : Customer} (ha : a ∈ cs) (hb : b ∈ cs) (hid : a.id = b.id) : a = b := by
  induction cs with
  | nil => cases ha
  | cons c t ih =>
    rw [List.map_cons, List.nodup_cons] at hnodup
    rcases List.mem_cons.mp ha with rfl | hat
    · rcases List.mem_cons.mp hb with rfl | hbt
      · rfl
      · exact absurd (hid ▸ List.mem_map_of_mem Customer.id hbt) hnodup.1
    · rcases List.mem_cons.mp hb with rfl | hbt
      · exact absurd (hid ▸ List.mem_map_of_mem Customer.id hat) hnodup.1
      · exact ih hnodup.2 hat hbt

/-- The first matching element is the head of the filter by a stronger
predicate, when the match itself satisfies the stronger predicate. -/
lemma find?_eq_filter_head (p q : Customer → Bool) (cs : List Customer)
    (m : Customer) (himp : ∀ c, q c = true → p c = true)
    (hfind : cs.find? p = some m) (hq : q m = true) :
    ∀ {h : Customer} {rest : List Customer}, cs.filter q = h :: rest → m = h := by
  induction cs with
  | nil => intro h rest hf; cases hfind
  | cons c t ih =>
    intro h rest hf
    by_cases hp : p c = true
    · rw [List.find?_cons_of_pos _ hp] at hfind
      injection hfind with hcm
      by_cases hqc : q c = true
      · rw [List.filter_cons_of_pos hqc] at hf
        exact hcm ▸ (List.cons_eq_cons.mp hf).1
      · exact absurd (hcm.symm ▸ hq) hqc
    · rw [List.find?_cons_of_neg _ hp] at hfind
      have hqc : ¬ q c = true := fun h1 => absurd (himp c h1) hp
      rw [List.filter_cons_of_neg hqc] at hf
      exact ih hfind hf

/-- Removing the filter head after an update that falsifies the predicate
exactly there. -/
lemma filter_updateCustomer_head (q : Customer → Bool) (f : Customer → Customer)
    (cs : List Customer) (h : Customer) (rest : List Customer)
    (hnodup : (cs.map Customer.id).Nodup)
    (hfilter : cs.filter q = h :: rest) (hqf : q (f h) = false) :
    (updateCustomer cs h.id f).filter q = rest := by
  induction cs generalizing rest with
  | nil => cases hfilter
  | cons c t ih =>
    rw [List.map_cons, List.nodup_cons] at hnodup
    by_cases hqc : q c = true
    · rw [List.filter_cons_of_pos hqc] at hfilter
      obtain ⟨he, hrest⟩ := List.cons_eq_cons.mp hfilter
      subst he
      show ((if c.id = c.id then f c else c) :: updateCustomer t c.id f).filter q = rest
      rw [if_pos rfl,
        updateCustomer_not_mem t c.id f
          (fun x hx hxid => hnodup.1 (hxid ▸ List.mem_map_of_mem Customer.id hx)),
        List.filter_cons_of_neg (by simp [hqf]), hrest]
    · rw [List.filter_cons_of_neg hqc] at hfilter
      have hmem : h ∈ t :=
        List.mem_of_mem_filter (hfilter ▸ List.mem_cons_self h rest)
      have hcid : ¬ c.id = h.id := fun he =>
        hnodup.1 (he ▸ List.mem_map_of_mem Customer.id hmem)
      show ((if c.id = h.id then f c else c) :: updateCustomer t h.id f).filter q = rest
      rw [if_neg hcid, List.filter_cons_of_neg hqc]
      exact ih rest hnodup.2 hfilter

/-- A customer in the updated list, unchanged when its id differs. -/
lemma mem_updateCustomer_of_ne {cs : List Customer} {x : Customer} {i : ℕ}
    {f : Customer → Customer} (hx : x ∈ cs) (hne : x.id ≠ i) :
    x ∈ updateCustomer cs i f :=
  List.mem_map.mpr ⟨x, hx, by rw [if_neg hne]⟩

/-- The updated image of a member with the matching id. -/
lemma mem_updateCustomer_self {cs : List Customer} {x : Customer} {i : ℕ}
    {f : Customer → Customer} (hx : x ∈ cs) (he : x.id = i) :
    f x ∈ updateCustomer cs i f :=
  List.mem_map.mpr ⟨x, hx, by rw [if_pos he]⟩

/-- Single-element update at the element's own id. -/
lemma updateCustomer_singleton (c : Customer) (f : Customer → Customer) :
    updateCustomer [c] c.id f = [f c] := by
  simp [updateCustomer]

/-- A served customer with positive service time and nonnegative arrival
departs strictly after time zero. -/
lemma served_dep_pos {c : Customer} (h : served c) (hst : 0 < c.service_time)
    (ha : 0 ≤ c.arrival_time) : 0 < c.departure_time := by
  obtain ⟨h1, h2⟩ := h
  rw [h2]
  linarith

/-- Starting service at a nonnegative clock gives a positive departure
time, which a zero test rejects. -/
lemma qadd_pos_ne {t sv : ℚ} (ht : 0 ≤ t) (h : 0 < sv) :
    (qadd t sv == 0) = false := by
  rw [beq_eq_false_iff_ne, qadd_eq]
  intro hc
  linarith

/-- Inductive invariant of the event loop, for strictly positive duration
streams: the clock is nonnegative and bounded by both pending events, the
wait queue is exactly the sublist of never-served customers (those whose
`departure_time` is still the default `0`), customer ids are the list
positions, every customer arrived at or before the clock with a positive
service time and is either never-served or consistently served, every
ghost-departed id names a served customer, a nonempty queue implies a
busy server, and `next_event_time` caches
`min(next_arrival, next_departure)`. -/
structure LoopInv (s : SimState) : Prop where
  clock_nonneg : 0 ≤ s.clock
  clock_le_arrival : s.clock ≤ s.next_arrival
  clock_le_departure : (XQ.fin s.clock).le s.next_departure = true
  queue_eq : s.queue = s.customers.filter (fun c => c.departure_time == 0)
  cust : ∀ c ∈ s.customers,
    0 < c.service_time ∧ 0 ≤ c.arrival_time ∧ c.arrival_time ≤ s.clock ∧
      (c.service_start = 0 ∧ c.departure_time = 0 ∨ served c)
  ids : s.customers.map Customer.id = List.range s.customers.length
  departed_served : ∀ i ∈ s.departed, ∃ c, c ∈ s.customers ∧ c.id = i ∧ served c
  queue_busy : s.queue ≠ [] → s.server_busy = true
  ne_eq : s.next_event_time = (XQ.fin s.next_arrival).minv s.next_departure

/-- The invariant holds when the run loop starts. -/
lemma inv_start (inter serv : ℕ → ℚ) (n : ℤ) : LoopInv (startState inter serv n) :=
  ⟨le_refl 0, le_refl 0, rfl, rfl,
    fun c hc => absurd hc (List.not_mem_nil c),
    rfl,
    fun i hi => absurd hi (List.not_mem_nil i),
    fun h => absurd rfl h,
    rfl⟩

/-- One completed loop iteration preserves the invariant when both
duration streams are strictly positive. -/
lemma inv_step {inter serv : ℕ → ℚ} (hi : ∀ k, 0 < inter k)
    (hsv : ∀ k, 0 < serv k) {s u : SimState} (hInv : LoopInv s)
    (hstep : step inter serv s = .cont u) : LoopInv u := by
  unfold step at hstep
  cases hne : s.next_event_time with
  | inf => rw [hne] at hstep; exact absurd hstep (by simp)
  | fin t =>
    rw [hne] at hstep
    simp only at hstep
    have hmin : (XQ.fin s.next_arrival).minv s.next_departure = XQ.fin t := by
      rw [← hInv.ne_eq]; exact hne
    have ht1 : s.clock ≤ t :=
      minv_fin_lower hmin hInv.clock_le_arrival hInv.clock_le_departure
    have ht0 : 0 ≤ t := le_trans hInv.clock_nonneg ht1
    obtain ⟨hta, htd⟩ := minv_fin_eq_fin hmin
    have hidlt : ∀ x ∈ s.customers, x.id < s.customers.length := by
      intro x hx
      have hm := List.mem_map_of_mem Customer.id hx
      rw [hInv.ids] at hm
      exact List.mem_range.mp hm
    have hcarry : ∀ c ∈ s.customers,
        0 < c.service_time ∧ 0 ≤ c.arrival_time ∧ c.arrival_time ≤ t ∧
          (c.service_start = 0 ∧ c.departure_time = 0 ∨ served c) := by
      intro c hc
      obtain ⟨h1, h2, h3, h4⟩ := hInv.cust c hc
      exact ⟨h1, h2, le_trans h3 ht1, h4⟩
    split at hstep
    · -- arrival branch
      rename_i hcond
      rw [Bool.and_eq_true, decide_eq_true_eq] at hcond
      obtain ⟨hle, hlen⟩ := hcond
      have htA : s.next_arrival = t := by
        have h2 := hmin
        rw [minv_of_le hle] at h2
        injection h2
      injection hstep with hu
      subst hu
      unfold handle_arrival schedule_departure schedule_arrival
      dsimp only
      split
      · rename_i hb
        split
        · rename_i hn
          refine ⟨ht0, ?_, htd, ?_, ?_, ?_, ?_, fun _ => hb, rfl⟩
          all_goals (try dsimp only)
          · rw [qadd_eq]
            have := hi s.nInter
            linarith
          · rw [List.filter_append, ← hInv.queue_eq,
              List.filter_cons_of_pos (by simp), List.filter_nil]
          · intro x hx
            rcases List.mem_append.mp hx with hx | hx
            · exact hcarry x hx
            · rw [List.mem_singleton.mp hx]
              refine ⟨hsv _, ?_, ?_, Or.inl ⟨rfl, rfl⟩⟩
              · rw [htA]; exact ht0
              · rw [htA]
          · simp [hInv.ids, List.range_succ]
          · intro i hi2
            obtain ⟨c2, hc2, hcid, hcs⟩ := hInv.departed_served i hi2
            exact ⟨c2, List.mem_append_left _ hc2, hcid, hcs⟩
        · rename_i hn
          refine ⟨ht0, hta, htd, ?_, ?_, ?_, ?_, fun _ => hb, rfl⟩
          all_goals (try dsimp only)
          · rw [List.filter_append, ← hInv.queue_eq,
              List.filter_cons_of_pos (by simp), List.filter_nil]
          · intro x hx
            rcases List.mem_append.mp hx with hx | hx
            · exact hcarry x hx
            · rw [List.mem_singleton.mp hx]
              refine ⟨hsv _, ?_, ?_, Or.inl ⟨rfl, rfl⟩⟩
              · rw [htA]; exact ht0
              · rw [htA]
          · simp [hInv.ids, List.range_succ]
          · intro i hi2
            obtain ⟨c2, hc2, hcid, hcs⟩ := hInv.departed_served i hi2
            exact ⟨c2, List.mem_append_left _ hc2, hcid, hcs⟩
      · rename_i hb
        have hqnil : s.queue = [] := by
          by_contra hqn
          exact hb (hInv.queue_busy hqn)
        have hupd : ∀ c0 : Customer, c0.id = s.customers.length →
            updateCustomer (s.customers ++ [c0]) s.customers.length (startService t) =
              s.customers ++ [startService t c0] := by
          intro c0 hc0
          rw [updateCustomer_append,
            updateCustomer_not_mem s.customers _ _
              (fun x hx => ne_of_lt (hidlt x hx))]
          congr 1
          rw [← hc0, updateCustomer_singleton]
        split
        · rename_i hn
          rw [hupd _ rfl]
          refine ⟨ht0, ?_, ?_, ?_, ?_, ?_, ?_, fun _ => rfl, rfl⟩
          all_goals (try dsimp only)
          · rw [qadd_eq]
            have := hi s.nInter
            linarith
          · rw [XQ.le_fin_iff, qadd_eq]
            have := hsv s.nServ
            linarith
          · rw [List.filter_append, ← hInv.queue_eq, hqnil,
              List.filter_cons_of_neg
                (by dsimp only [startService]
                    rw [qadd_pos_ne ht0 (hsv s.nServ)]
                    simp),
              List.filter_nil]
            rfl
          · intro x hx
            rcases List.mem_append.mp hx with hx | hx
            · exact hcarry x hx
            · rw [List.mem_singleton.mp hx]
              refine ⟨hsv _, ?_, ?_, Or.inr ⟨?_, ?_⟩⟩
              · rw [startService]
                dsimp only
                rw [htA]; exact ht0
              · rw [startService]
                dsimp only
                rw [htA]
              · rw [startService]
                dsimp only
                rw [htA]
              · exact qadd_eq t _
          · rw [List.map_append]
            simp [hInv.ids, List.range_succ, startService]
          · intro i hi2
            obtain ⟨c2, hc2, hcid, hcs⟩ := hInv.departed_served i hi2
            exact ⟨c2, List.mem_append_left _ hc2, hcid, hcs⟩
        · rename_i hn
          rw [hupd _ rfl]
          refine ⟨ht0, hta, ?_, ?_, ?_, ?_, ?_, fun _ => rfl, rfl⟩
          all_goals (try dsimp only)
          · rw [XQ.le_fin_iff, qadd_eq]
            have := hsv s.nServ
            linarith
          · rw [List.filter_append, ← hInv.queue_eq, hqnil,
              List.filter_cons_of_neg
                (by dsimp only [startService]
                    rw [qadd_pos_ne ht0 (hsv s.nServ)]
                    simp),
              List.filter_nil]
            rfl
          · intro x hx
            rcases List.mem_append.mp hx with hx | hx
            · exact hcarry x hx
            · rw [List.mem_singleton.mp hx]
              refine ⟨hsv _, ?_, ?_, Or.inr ⟨?_, ?_⟩⟩
              · rw [startService]
                dsimp only
                rw [htA]; exact ht0
              · rw [startService]
                dsimp only
                rw [htA]
              · rw [startService]
                dsimp only
                rw [htA]
              · exact qadd_eq t _
          · rw [List.map_append]
            simp [hInv.ids, List.range_succ, startService]
          · intro i hi2
            obtain ⟨c2, hc2, hcid, hcs⟩ := hInv.departed_served i hi2
            exact ⟨c2, List.mem_append_left _ hc2, hcid, hcs⟩
    · -- departure branch
      rename_i hcond
      split at hstep
      · exact absurd hstep (by simp)
      · rename_i m hfind
        injection hstep with hu
        subst hu
        try dsimp only at hfind
        have hmem : m ∈ s.customers := List.mem_of_find?_eq_some hfind
        have hmatch : departureMatch t m = true := List.find?_some hfind
        have hnd : (s.customers.map Customer.id).Nodup := by
          rw [hInv.ids]; exact List.nodup_range _
        unfold handle_departure schedule_departure
        dsimp only
        split
        · rename_i hqe
          refine ⟨ht0, hta, XQ.le_inf _, hInv.queue_eq, hcarry, hInv.ids, ?_,
            fun hx => absurd hqe hx, rfl⟩
          try dsimp only
          · intro i hi2
            rcases List.mem_append.mp hi2 with hi2 | hi2
            · exact hInv.departed_served i hi2
            · rw [List.mem_singleton.mp hi2]
              refine ⟨m, hmem, rfl, ?_⟩
              obtain ⟨_, _, _, hd⟩ := hInv.cust m hmem
              rcases hd with ⟨hss, hdep⟩ | hsrv
              · exfalso
                have hmf : m ∈ s.customers.filter (fun c => c.departure_time == 0) :=
                  List.mem_filter.mpr ⟨hmem, by simp [hdep]⟩
                rw [← hInv.queue_eq, hqe] at hmf
                cases hmf
              · exact hsrv
        · rename_i h rest hqe
          have hfq : s.customers.filter (fun c => c.departure_time == 0) = h :: rest := by
            rw [← hInv.queue_eq]; exact hqe
          have hhf : h ∈ s.customers.filter (fun c => c.departure_time == 0) := by
            rw [hfq]; exact List.mem_cons_self h rest
          have hh_mem : h ∈ s.customers := List.mem_of_mem_filter hhf
          have hh_dep : h.departure_time = 0 := by
            have h2 := (List.mem_filter.mp hhf).2
            simpa using h2
          obtain ⟨hh_st, hh_a0, hh_at, _⟩ := hcarry h hh_mem
          have hqf : ((startService t h).departure_time == 0) = false := by
            rw [startService]
            dsimp only
            rw [beq_eq_false_iff_ne, qadd_eq]
            intro hcontra
            linarith
          have hfupd : (updateCustomer s.customers h.id (startService t)).filter
              (fun c => c.departure_time == 0) = rest :=
            filter_updateCustomer_head _ _ _ h rest hnd hfq hqf
          refine ⟨ht0, hta, ?_, hfupd.symm, ?_, ?_, ?_, ?_, rfl⟩
          all_goals (try dsimp only)
          · rw [XQ.le_fin_iff, qadd_eq]
            linarith
          · intro x2 hx2
            obtain ⟨x, hx, hx2eq⟩ := mem_updateCustomer hx2
            by_cases hxid : x.id = h.id
            · have hxh : x = h := mem_id_inj hnd hx hh_mem hxid
              subst hxh
              rw [if_pos hxid] at hx2eq
              subst hx2eq
              refine ⟨hh_st, hh_a0, hh_at, Or.inr ⟨hh_at, ?_⟩⟩
              exact qadd_eq t _
            · rw [if_neg hxid] at hx2eq
              subst hx2eq
              exact hcarry _ hx
          · rw [updateCustomer_map_id s.customers h.id (startService t)
              (fun c => rfl), hInv.ids, updateCustomer_length]
          · intro i hi2
            rcases List.mem_append.mp hi2 with hi2 | hi2
            · obtain ⟨c2, hc2, hcid, hcs⟩ := hInv.departed_served i hi2
              have hc2ne : c2.id ≠ h.id := by
                intro he
                have hc2h : c2 = h := mem_id_inj hnd hc2 hh_mem he
                have hpos : 0 < c2.departure_time :=
                  served_dep_pos hcs (hcarry c2 hc2).1 (hcarry c2 hc2).2.1
                rw [hc2h, hh_dep] at hpos
                exact absurd hpos (by norm_num)
              exact ⟨c2, mem_updateCustomer_of_ne hc2 hc2ne, hcid, hcs⟩
            · rw [List.mem_singleton.mp hi2]
              obtain ⟨hm_st, hm_a0, hm_at, hmd⟩ := hcarry m hmem
              rcases hmd with ⟨hss, hdep⟩ | hsrv
              · have hmh : m = h := by
                  refine find?_eq_filter_head (fun c => departureMatch t c)
                    (fun c => c.departure_time == 0) s.customers m ?_ hfind ?_ hfq
                  · intro x hx0
                    have hx0e : x.departure_time = 0 := by simpa using hx0
                    have hxm : departureMatch t x = departureMatch t m := by
                      unfold departureMatch
                      rw [hx0e, hdep]
                    show departureMatch t x = true
                    rw [hxm]
                    exact hmatch
                  · simp [hdep]
                subst hmh
                refine ⟨startService t m, mem_updateCustomer_self hh_mem rfl,
                  rfl, hh_at, ?_⟩
                exact qadd_eq t _
              · have hmne : m.id ≠ h.id := by
                  intro he
                  have hmh : m = h := mem_id_inj hnd hmem hh_mem he
                  have hpos : 0 < m.departure_time :=
                    served_dep_pos hsrv hm_st hm_a0
                  rw [hmh, hh_dep] at hpos
                  exact absurd hpos (by norm_num)
                exact ⟨m, mem_updateCustomer_of_ne hmem hmne, rfl, hsrv⟩
          · intro hrest
            exact hInv.queue_busy (by rw [hqe]; exact List.cons_ne_nil h rest)

/-- The invariant holds in every state reached by completed loop
iterations from an invariant state. -/
lemma reaches_inv {inter serv : ℕ → ℚ} (hi : ∀ k, 0 < inter k)
    (hsv : ∀ k, 0 < serv k) {s u : SimState}
    (hr : Reaches inter serv s u) (h0 : LoopInv s) : LoopInv u := by
  induction hr with
  | refl => exact h0
  | tail hr hstep ih => exact inv_step hi hsv ih hstep

/-- C8: confirmed. After every completed arrival or departure transition
of a run with strictly positive duration streams, the station-state
invariant holds: the wait queue is non-empty only while the server is
busy. -/
theorem c8_queue_nonempty_implies_busy (inter serv : ℕ → ℚ) (n : ℤ)
    (hi : ∀ k, 0 < inter k) (hsv : ∀ k, 0 < serv k) (s : SimState)
    (hr : Reaches inter serv (startState inter serv n) s)
    (hq : s.queue ≠ []) : s.server_busy = true :=
  (reaches_inv hi hsv hr (inv_start inter serv n)).queue_busy hq

/-- C8 witness: the state after two iterations of the two-customer
concrete run has customer 1 queued, and the theorem yields a busy
server there. -/
theorem c8_witness :
    (∀ k, (0:ℚ) < uInter k) ∧ (∀ k, (0:ℚ) < uServ k) ∧
    Reaches uInter uServ (startState uInter uServ 2) exState2 ∧
    exState2.queue ≠ [] ∧ exState2.server_busy = true := by
  have hi : ∀ k, (0:ℚ) < uInter k := fun k => by norm_num [uInter]
  have hsv : ∀ k, (0:ℚ) < uServ k := fun k => by
    show (0:ℚ) < ((k + 2 : ℕ) : ℚ)
    exact_mod_cast Nat.succ_pos (k + 1)
  have h1 : step uInter uServ (startState uInter uServ 2) =
      .cont (stepN uInter uServ 1 (startState uInter uServ 2)) := by decide
  have h2 : step uInter uServ (stepN uInter uServ 1 (startState uInter uServ 2)) =
      .cont exState2 := by decide
  have hr : Reaches uInter uServ (startState uInter uServ 2) exState2 :=
    Reaches.tail (Reaches.tail (Reaches.refl _) h1) h2
  exact ⟨hi, hsv, hr, by decide,
    c8_queue_nonempty_implies_busy uInter uServ 2 hi hsv exState2 hr (by decide)⟩

/-- C7: confirmed. In a run with strictly positive duration streams,
after every completed transition every customer that has been dispatched
as a departure has nonnegative waiting time and
`time_in_system = waiting_time + service_time`. -/
theorem c7_completed_customer_times (inter serv : ℕ → ℚ) (n : ℤ)
    (hi : ∀ k, 0 < inter k) (hsv : ∀ k, 0 < serv k) (s : SimState)
    (hr : Reaches inter serv (startState inter serv n) s)
    (c : Customer) (hc : c ∈ s.customers) (hd : c.id ∈ s.departed) :
    0 ≤ c.waiting_time ∧
      c.time_in_system = c.waiting_time + c.service_time := by
  have hInv := reaches_inv hi hsv hr (inv_start inter serv n)
  obtain ⟨c2, hc2, hcid, hsrv⟩ := hInv.departed_served c.id hd
  have hnd : (s.customers.map Customer.id).Nodup := by
    rw [hInv.ids]; exact List.nodup_range _
  have hcc : c2 = c := mem_id_inj hnd hc2 hc hcid
  subst hcc
  obtain ⟨h1, h2⟩ := hsrv
  constructor
  · rw [Customer.waiting_time, qsub_eq]
    linarith
  · rw [Customer.time_in_system, Customer.waiting_time, qsub_eq, qsub_eq, h2]
    ring

/-- C7 witness: after three iterations of the two-customer concrete run,
customer 1 has been dispatched as a departure; the theorem yields its
waiting time `0` and the exact system-time identity. -/
theorem c7_witness :
    (∀ k, (0:ℚ) < uInter k) ∧ (∀ k, (0:ℚ) < uServ k) ∧
    Reaches uInter uServ (startState uInter uServ 2) exState3 ∧
    (exState3.customers.getD 1 default) ∈ exState3.customers ∧
    (exState3.customers.getD 1 default).id ∈ exState3.departed ∧
    (0 ≤ (exState3.customers.getD 1 default).waiting_time ∧
      (exState3.customers.getD 1 default).time_in_system =
        (exState3.customers.getD 1 default).waiting_time +
          (exState3.customers.getD 1 default).service_time) := by
  have hi : ∀ k, (0:ℚ) < uInter k := fun k => by norm_num [uInter]
  have hsv : ∀ k, (0:ℚ) < uServ k := fun k => by
    show (0:ℚ) < ((k + 2 : ℕ) : ℚ)
    exact_mod_cast Nat.succ_pos (k + 1)
  have h1 : step uInter uServ (startState uInter uServ 2) =
      .cont (stepN uInter uServ 1 (startState uInter uServ 2)) := by decide
  have h2 : step uInter uServ (stepN uInter uServ 1 (startState uInter uServ 2)) =
      .cont (stepN uInter uServ 2 (startState uInter uServ 2)) := by decide
  have h3 : step uInter uServ (stepN uInter uServ 2 (startState uInter uServ 2)) =
      .cont exState3 := by decide
  have hr : Reaches uInter uServ (startState uInter uServ 2) exState3 :=
    Reaches.tail (Reaches.tail (Reaches.tail (Reaches.refl _) h1) h2) h3
  exact ⟨hi, hsv, hr, by decide, by decide,
    c7_completed_customer_times uInter uServ 2 hi hsv exState3 hr _
      (by decide) (by decide)⟩
